import Mathlib

/-!
Verification development for the `TreeItem` cached-aggregate engine
(`pootle/core/mixins/treeitem.py`).

The tree of entities is shallowly embedded as the inductive `GNode`:
each node carries its cache key, its raw (own, unaggregated) statistics,
its parent links and its child links, already unfolded into finite
structures (the source assumes the parent/child graph is acyclic, so a
finite unfolding of every reachable path exists).  The durable cache
store is embedded as one lookup table per statistic, keyed by the node
cache key; this mirrors the source's key scheme `cachekey + ":" + name`,
which separates entries per (node, statistic) pair.
-/

namespace Pootle

/-- A `last_action` record `{id, mtime, snippet}`.  The `mtime` field is
optional because the source guards `'mtime' in x` when sorting such
records. -/
structure Action where
  id : Nat
  mtime : Option Nat
  snippet : String
deriving Repr, DecidableEq

/-- A `last_updated` record `{id, creation_time, snippet}`; the source
guards `'creation_time' in x` when sorting. -/
structure Updated where
  id : Nat
  creation_time : Option Nat
  snippet : String
deriving Repr, DecidableEq

/-- The `get_checks` result shape `{unit_count, checks}`.  The category
map is modelled extensionally as a total function, a missing category
counting as 0. -/
structure ChecksRec where
  unit_count : Nat
  checks : String → Nat

/-- The raw, unaggregated statistics a concrete node type produces via
its `_get_*` providers (the base-class defaults are the zero values of
these fields). -/
structure Raw where
  total : Nat
  translated : Nat
  fuzzy : Nat
  suggestions : Nat
  last_action : Action
  checks : ChecksRec
  mtime : Nat
  last_updated : Updated

/-- A tree node: cache key, raw statistics, parent links and child
links (`get_cachekey`, the `_get_*` providers, `get_parents`,
`get_children` of the source). -/
inductive GNode where
  | mk (key : String) (raw : Raw) (parents : List GNode) (children : List GNode)

def GNode.key : GNode → String
  | .mk k _ _ _ => k

def GNode.raw : GNode → Raw
  | .mk _ r _ _ => r

def GNode.parents : GNode → List GNode
  | .mk _ _ ps _ => ps

def GNode.children : GNode → List GNode
  | .mk _ _ _ cs => cs

/-- Modelled from the spec: the external key-value cache store
(`django.core.cache`, plus the `get_cached_value` / `set_cached_value`
helpers of `pootle_misc.util`, which are not part of this source file).
One lookup table per statistic name, keyed by the node's cache key. -/
structure Cache where
  total : String → Option Nat
  translated : String → Option Nat
  fuzzy : String → Option Nat
  suggestions : String → Option Nat
  last_action : String → Option Action
  checks : String → Option ChecksRec
  mtime : String → Option Nat
  last_updated : String → Option Updated

/-- Point update of one lookup table. -/
def upd {α : Type} (f : String → Option α) (k : String) (v : Option α) :
    String → Option α :=
  fun q => if q = k then v else f q

def Cache.empty : Cache :=
  ⟨fun _ => none, fun _ => none, fun _ => none, fun _ => none,
   fun _ => none, fun _ => none, fun _ => none, fun _ => none⟩

def Cache.setTotal (c : Cache) (k : String) (v : Nat) : Cache :=
  { c with total := upd c.total k (some v) }

def Cache.setTranslated (c : Cache) (k : String) (v : Nat) : Cache :=
  { c with translated := upd c.translated k (some v) }

def Cache.setFuzzy (c : Cache) (k : String) (v : Nat) : Cache :=
  { c with fuzzy := upd c.fuzzy k (some v) }

def Cache.setSuggestions (c : Cache) (k : String) (v : Nat) : Cache :=
  { c with suggestions := upd c.suggestions k (some v) }

def Cache.setLastAction (c : Cache) (k : String) (v : Action) : Cache :=
  { c with last_action := upd c.last_action k (some v) }

def Cache.setChecks (c : Cache) (k : String) (v : ChecksRec) : Cache :=
  { c with checks := upd c.checks k (some v) }

def Cache.setMtime (c : Cache) (k : String) (v : Nat) : Cache :=
  { c with mtime := upd c.mtime k (some v) }

def Cache.setLastUpdated (c : Cache) (k : String) (v : Updated) : Cache :=
  { c with last_updated := upd c.last_updated k (some v) }

/-- The method-name constants of `CachedMethods`. -/
def CachedMethods.CHECKS : String := "get_checks"
def CachedMethods.TOTAL : String := "get_total_wordcount"
def CachedMethods.TRANSLATED : String := "get_translated_wordcount"
def CachedMethods.FUZZY : String := "get_fuzzy_wordcount"
def CachedMethods.LAST_ACTION : String := "get_last_action"
def CachedMethods.SUGGESTIONS : String := "get_suggestion_count"
def CachedMethods.MTIME : String := "get_mtime"
def CachedMethods.LAST_UPDATED : String := "get_last_updated"

/-- `CachedMethods.get_all()`: the attribute values in the order
produced by `dir(CachedMethods)` (alphabetical by attribute name). -/
def CachedMethods.get_all : List String :=
  [CachedMethods.CHECKS, CachedMethods.FUZZY, CachedMethods.LAST_ACTION,
   CachedMethods.LAST_UPDATED, CachedMethods.MTIME, CachedMethods.SUGGESTIONS,
   CachedMethods.TOTAL, CachedMethods.TRANSLATED]

/-- Modelled from the spec: `cache.delete(iri_to_uri(itemkey + ":" + key))`
for one statistic name; deleting an unknown name touches no table any
getter reads. -/
def Cache.delStat (c : Cache) (k name : String) : Cache :=
  if name = CachedMethods.CHECKS then { c with checks := upd c.checks k none }
  else if name = CachedMethods.FUZZY then { c with fuzzy := upd c.fuzzy k none }
  else if name = CachedMethods.LAST_ACTION then
    { c with last_action := upd c.last_action k none }
  else if name = CachedMethods.LAST_UPDATED then
    { c with last_updated := upd c.last_updated k none }
  else if name = CachedMethods.MTIME then { c with mtime := upd c.mtime k none }
  else if name = CachedMethods.SUGGESTIONS then
    { c with suggestions := upd c.suggestions k none }
  else if name = CachedMethods.TOTAL then { c with total := upd c.total k none }
  else if name = CachedMethods.TRANSLATED then
    { c with translated := upd c.translated k none }
  else c

/-- The sort key of `get_last_action`:
`x['mtime'] if 'mtime' in x else 0`. -/
def laKey (a : Action) : Nat := a.mtime.getD 0

/-- The sort key of `get_last_updated`:
`x['creation_time'] if 'creation_time' in x else 0`. -/
def luKey (u : Updated) : Nat := u.creation_time.getD 0

/-- Python's `max(hd :: tl, key=keyf)`: the first element attaining the
maximal key (a later element replaces the current best only when its key
is strictly greater). -/
def pyMax {α : Type} (keyf : α → Nat) (hd : α) (tl : List α) : α :=
  tl.foldl (fun b x => if keyf b < keyf x then x else b) hd

/-- Modelled from the spec: `dictsum` of `pootle_misc.util` — key-wise
sum of per-category counts, a key missing from one side counting as 0
(maps are total functions, absence being 0). -/
def dictsum (a b : String → Nat) : String → Nat :=
  fun k => a k + b k

/-!  The statistic getters.  Each follows the `@getfromcache` pattern,
modelled from the spec: on a cache hit return the entry, on a miss
compute (recursively reading each child, threading the store), write the
entry, and return it.  The node's `initialize_children` step does not
change the child list here because `GNode` carries the (immutable) tree
shape; the memoization behaviour itself is modelled separately below. -/

mutual

/-- `get_total_wordcount`: own raw value plus `_sum` over children. -/
def get_total_wordcount : GNode → Cache → Nat × Cache
  | GNode.mk k raw _ cs, c =>
    match c.total k with
    | some v => (v, c)
    | none =>
      let sc := sum_total cs c
      let v := raw.total + sc.1
      (v, (sc.2).setTotal k v)

/-- `_sum('get_total_wordcount')`: sequential reads over the child
list, threading the cache store. -/
def sum_total : List GNode → Cache → Nat × Cache
  | [], c => (0, c)
  | g :: gs, c =>
    let vc := get_total_wordcount g c
    let rest := sum_total gs vc.2
    (vc.1 + rest.1, rest.2)

end

mutual

/-- `get_translated_wordcount`: own raw value plus `_sum` over children. -/
def get_translated_wordcount : GNode → Cache → Nat × Cache
  | GNode.mk k raw _ cs, c =>
    match c.translated k with
    | some v => (v, c)
    | none =>
      let sc := sum_translated cs c
      let v := raw.translated + sc.1
      (v, (sc.2).setTranslated k v)

/-- `_sum('get_translated_wordcount')` over the child list. -/
def sum_translated : List GNode → Cache → Nat × Cache
  | [], c => (0, c)
  | g :: gs, c =>
    let vc := get_translated_wordcount g c
    let rest := sum_translated gs vc.2
    (vc.1 + rest.1, rest.2)

end

mutual

/-- `get_fuzzy_wordcount`: own raw value plus `_sum` over children. -/
def get_fuzzy_wordcount : GNode → Cache → Nat × Cache
  | GNode.mk k raw _ cs, c =>
    match c.fuzzy k with
    | some v => (v, c)
    | none =>
      let sc := sum_fuzzy cs c
      let v := raw.fuzzy + sc.1
      (v, (sc.2).setFuzzy k v)

/-- `_sum('get_fuzzy_wordcount')` over the child list. -/
def sum_fuzzy : List GNode → Cache → Nat × Cache
  | [], c => (0, c)
  | g :: gs, c =>
    let vc := get_fuzzy_wordcount g c
    let rest := sum_fuzzy gs vc.2
    (vc.1 + rest.1, rest.2)

end

mutual

/-- `get_suggestion_count`: own raw value plus `_sum` over children. -/
def get_suggestion_count : GNode → Cache → Nat × Cache
  | GNode.mk k raw _ cs, c =>
    match c.suggestions k with
    | some v => (v, c)
    | none =>
      let sc := sum_suggestions cs c
      let v := raw.suggestions + sc.1
      (v, (sc.2).setSuggestions k v)

/-- `_sum('get_suggestion_count')` over the child list. -/
def sum_suggestions : List GNode → Cache → Nat × Cache
  | [], c => (0, c)
  | g :: gs, c =>
    let vc := get_suggestion_count g c
    let rest := sum_suggestions gs vc.2
    (vc.1 + rest.1, rest.2)

end

mutual

/-- `get_last_action`: `max` of the own raw record and each child's
aggregate, keyed by the guarded `mtime` lookup. -/
def get_last_action : GNode → Cache → Action × Cache
  | GNode.mk k raw _ cs, c =>
    match c.last_action k with
    | some v => (v, c)
    | none =>
      let lc := list_last_action cs c
      let v := pyMax laKey raw.last_action lc.1
      (v, (lc.2).setLastAction k v)

/-- The comprehension `[item.get_last_action() for item in children]`. -/
def list_last_action : List GNode → Cache → List Action × Cache
  | [], c => ([], c)
  | g :: gs, c =>
    let vc := get_last_action g c
    let rest := list_last_action gs vc.2
    (vc.1 :: rest.1, rest.2)

end

mutual

/-- `get_mtime`: `max` of the own raw timestamp and each child's
aggregate. -/
def get_mtime : GNode → Cache → Nat × Cache
  | GNode.mk k raw _ cs, c =>
    match c.mtime k with
    | some v => (v, c)
    | none =>
      let lc := list_mtime cs c
      let v := pyMax (fun x => x) raw.mtime lc.1
      (v, (lc.2).setMtime k v)

/-- The comprehension `[item.get_mtime() for item in children]`. -/
def list_mtime : List GNode → Cache → List Nat × Cache
  | [], c => ([], c)
  | g :: gs, c =>
    let vc := get_mtime g c
    let rest := list_mtime gs vc.2
    (vc.1 :: rest.1, rest.2)

end

mutual

/-- `get_last_updated`: `max` of the own raw record and each child's
aggregate, keyed by the guarded `creation_time` lookup. -/
def get_last_updated : GNode → Cache → Updated × Cache
  | GNode.mk k raw _ cs, c =>
    match c.last_updated k with
    | some v => (v, c)
    | none =>
      let lc := list_last_updated cs c
      let v := pyMax luKey raw.last_updated lc.1
      (v, (lc.2).setLastUpdated k v)

/-- The comprehension `[item.get_last_updated() for item in children]`. -/
def list_last_updated : List GNode → Cache → List Updated × Cache
  | [], c => ([], c)
  | g :: gs, c =>
    let vc := get_last_updated g c
    let rest := list_last_updated gs vc.2
    (vc.1 :: rest.1, rest.2)

end

mutual

/-- `get_checks`: starts from the own raw record, then for each child
adds the child's aggregate (`dictsum` on the category map, `+` on
`unit_count`). -/
def get_checks : GNode → Cache → ChecksRec × Cache
  | GNode.mk k raw _ cs, c =>
    match c.checks k with
    | some v => (v, c)
    | none =>
      let rc := go_checks cs raw.checks c
      (rc.1, (rc.2).setChecks k rc.1)

/-- The accumulation loop of `get_checks` over the child list. -/
def go_checks : List GNode → ChecksRec → Cache → ChecksRec × Cache
  | [], acc, c => (acc, c)
  | g :: gs, acc, c =>
    let vc := get_checks g c
    go_checks gs ⟨acc.unit_count + vc.1.unit_count,
                  dictsum acc.checks vc.1.checks⟩ vc.2

end

mutual

/-- `set_last_action`: write the record into the node's `last_action`
cache entry unconditionally, then walk the parents; a propagation step
on a parent happens only when that parent has a cached record whose
`mtime` is strictly smaller.  `none` models the `KeyError` the source
raises when a compared record lacks the `mtime` field. -/
def set_last_action : GNode → Action → Cache → Option Cache
  | GNode.mk k _ ps _, la, c =>
    sla_parents ps la (c.setLastAction k la)

/-- The parent loop of `set_last_action`, threading the cache store. -/
def sla_parents : List GNode → Action → Cache → Option Cache
  | [], _, c => some c
  | p :: ps, la, c =>
    match c.last_action p.key with
    | some pla =>
      match pla.mtime with
      | none => none
      | some pm =>
        match la.mtime with
        | none => none
        | some lm =>
          if pm < lm then
            match set_last_action p la c with
            | some cNew => sla_parents ps la cNew
            | none => none
          else sla_parents ps la c
    | none => sla_parents ps la c

end

/-- `flag_for_deletion(*args)`: set union into the pending set,
modelled as an ordered list without duplicates. -/
def flag_for_deletion (flagged : List String) (args : List String) :
    List String :=
  args.foldl (fun s k => if k ∈ s then s else s ++ [k]) flagged

mutual

/-- `_clear_cache(keys, parents, children)`: delete every flagged entry
of this node, then recurse to parents and/or children.  The source
rebinds `parents` to the parent list and passes that list itself as the
recursive `parents` flag; its truthiness at the recursive call is
therefore exactly `parents list nonempty`, which is what the boolean
argument of `clear_up` records. -/
def _clear_cache : GNode → List String → Bool → Bool → Cache → Cache
  | GNode.mk k _ ps cs, keys, parents, children, c =>
    let c1 := keys.foldl (fun cc name => cc.delStat k name) c
    let c2 := if parents then clear_up ps keys (!ps.isEmpty) c1 else c1
    if children then clear_down cs keys c2 else c2

/-- The upward loop of `_clear_cache`. -/
def clear_up : List GNode → List String → Bool → Cache → Cache
  | [], _, _, c => c
  | p :: ps, keys, pb, c =>
    clear_up ps keys pb (_clear_cache p keys pb false c)

/-- The downward loop of `_clear_cache`. -/
def clear_down : List GNode → List String → Cache → Cache
  | [], _, c => c
  | g :: gs, keys, c =>
    clear_down gs keys (_clear_cache g keys false true c)

end

/-- `clear_flagged_cache(parents, children)`: drain the pending set
through `_clear_cache`, then reset it to empty.  The node's pending set
is passed explicitly; the result pairs the new store with the new
pending set. -/
def clear_flagged_cache (n : GNode) (flagged : List String)
    (parents children : Bool) (c : Cache) : Cache × List String :=
  (_clear_cache n flagged parents children c, [])

/-- `clear_all_cache(children, parents)`: flag every known statistic
name, then drain. -/
def clear_all_cache (n : GNode) (flagged : List String)
    (children parents : Bool) (c : Cache) : Cache × List String :=
  clear_flagged_cache n (flag_for_deletion flagged CachedMethods.get_all)
    parents children c

/-- The tail of `refresh_stats`: read every statistic in source order,
threading the cache store and discarding the values. -/
def read_all_stats (n : GNode) (c : Cache) : Cache :=
  let c2 := (get_total_wordcount n c).2
  let c3 := (get_translated_wordcount n c2).2
  let c4 := (get_fuzzy_wordcount n c3).2
  let c5 := (get_suggestion_count n c4).2
  let c6 := (get_last_action n c5).2
  let c7 := (get_checks n c6).2
  let c8 := (get_mtime n c7).2
  (get_last_updated n c8).2

mutual

/-- `refresh_stats(include_children)`: refresh every child first when
`include_children` is true, then — via the `else` clause of the child
loop, which runs whenever the loop finishes without `break`, hence
unconditionally here — `clear_all_cache(parents=True, children=False)`,
then read every statistic in source order.  Each node's pending set is
taken empty (`clear_all_cache` flags every statistic name regardless).
The second component records the keys of the nodes on which the
clear-own-cache step ran, in execution order. -/
def refresh_stats : GNode → Bool → Cache → Cache × List String
  | GNode.mk k raw ps cs, include_children, c =>
    let n := GNode.mk k raw ps cs
    let start :=
      if include_children then
        let rc := refresh_children cs c
        ((clear_all_cache n [] false true rc.1).1, rc.2 ++ [k])
      else (c, ([] : List String))
    (read_all_stats n start.1, start.2)

/-- The child loop of `refresh_stats` (each child refreshed with the
default `include_children=True`). -/
def refresh_children : List GNode → Cache → Cache × List String
  | [], c => (c, [])
  | g :: gs, c =>
    let r1 := refresh_stats g true c
    let r2 := refresh_children gs r1.1
    (r2.1, r1.2 ++ r2.2)

end

/-- The per-instance state set up by `TreeItem.__init__`: the memoized
child list, the `initialized` flag and the pending-invalidation set. -/
structure NodeInstance where
  children : Option (List GNode)
  initialized : Bool
  flagged_for_deletion : List String

/-- The state `__init__` leaves behind: `children = None`,
`initialized = False`, empty pending set. -/
def NodeInstance.start : NodeInstance := ⟨none, false, []⟩

/-- `initialize_children`: populate the child list from `get_children`
(the navigator result `gc`) once; the second component counts how many
times `get_children` was invoked by this call. -/
def initialize_children (gc : List GNode) (s : NodeInstance) :
    NodeInstance × Nat :=
  if s.initialized then (s, 0)
  else ({ s with children := some gc, initialized := true }, 1)

/-- Repeated calls of `initialize_children` on the same instance,
accumulating the number of `get_children` invocations. -/
def initialize_children_iter (gc : List GNode) (s : NodeInstance) :
    Nat → NodeInstance × Nat
  | 0 => (s, 0)
  | m + 1 =>
    let r := initialize_children gc s
    let rest := initialize_children_iter gc r.1 m
    (rest.1, r.2 + rest.2)

/-!  From-scratch recomputation functions: the value each statistic has
when recomputed with no cache involved, used to express "forced
recomputation" claims. -/

mutual

/-- From-scratch `total_wordcount`. -/
def totalSpec : GNode → Nat
  | GNode.mk _ r _ cs => r.total + totalSpecList cs

def totalSpecList : List GNode → Nat
  | [] => 0
  | g :: gs => totalSpec g + totalSpecList gs

end

mutual

/-- From-scratch `translated_wordcount`. -/
def translatedSpec : GNode → Nat
  | GNode.mk _ r _ cs => r.translated + translatedSpecList cs

def translatedSpecList : List GNode → Nat
  | [] => 0
  | g :: gs => translatedSpec g + translatedSpecList gs

end

mutual

/-- From-scratch `fuzzy_wordcount`. -/
def fuzzySpec : GNode → Nat
  | GNode.mk _ r _ cs => r.fuzzy + fuzzySpecList cs

def fuzzySpecList : List GNode → Nat
  | [] => 0
  | g :: gs => fuzzySpec g + fuzzySpecList gs

end

mutual

/-- From-scratch `suggestion_count`. -/
def suggestionsSpec : GNode → Nat
  | GNode.mk _ r _ cs => r.suggestions + suggestionsSpecList cs

def suggestionsSpecList : List GNode → Nat
  | [] => 0
  | g :: gs => suggestionsSpec g + suggestionsSpecList gs

end

mutual

/-- From-scratch `last_action`. -/
def laSpec : GNode → Action
  | GNode.mk _ r _ cs => pyMax laKey r.last_action (laSpecList cs)

def laSpecList : List GNode → List Action
  | [] => []
  | g :: gs => laSpec g :: laSpecList gs

end

mutual

/-- From-scratch `mtime`. -/
def mtimeSpec : GNode → Nat
  | GNode.mk _ r _ cs => pyMax (fun x => x) r.mtime (mtimeSpecList cs)

def mtimeSpecList : List GNode → List Nat
  | [] => []
  | g :: gs => mtimeSpec g :: mtimeSpecList gs

end

mutual

/-- From-scratch `last_updated`. -/
def luSpec : GNode → Updated
  | GNode.mk _ r _ cs => pyMax luKey r.last_updated (luSpecList cs)

def luSpecList : List GNode → List Updated
  | [] => []
  | g :: gs => luSpec g :: luSpecList gs

end

/-- Pure accumulation mirroring the loop of `get_checks`, over a given
per-child aggregate function. -/
def checksCombine (f : GNode → ChecksRec) : List GNode → ChecksRec → ChecksRec
  | [], acc => acc
  | g :: gs, acc =>
    checksCombine f gs
      ⟨acc.unit_count + (f g).unit_count, dictsum acc.checks (f g).checks⟩

mutual

/-- From-scratch `checks`. -/
def checksSpec : GNode → ChecksRec
  | GNode.mk _ r _ cs => checksSpecGo cs r.checks

def checksSpecGo : List GNode → ChecksRec → ChecksRec
  | [], acc => acc
  | g :: gs, acc =>
    checksSpecGo gs
      ⟨acc.unit_count + (checksSpec g).unit_count,
       dictsum acc.checks (checksSpec g).checks⟩

end

mutual

/-- Every node of the subtree rooted at a node (the node itself
included), in preorder. -/
def descendants : GNode → List GNode
  | GNode.mk k r ps cs => GNode.mk k r ps cs :: descendantsList cs

def descendantsList : List GNode → List GNode
  | [] => []
  | g :: gs => descendants g ++ descendantsList gs

end

mutual

/-- True when no node of the subtree has parent links, so upward
propagation of a clear never leaves the subtree. -/
def noParents : GNode → Bool
  | GNode.mk _ _ ps cs => ps.isEmpty && noParentsList cs

def noParentsList : List GNode → Bool
  | [] => true
  | g :: gs => noParents g && noParentsList gs

end

/-- The cache keys of the subtree rooted at a node. -/
def subtreeKeys (n : GNode) : List String :=
  (descendants n).map GNode.key

/-- The cache keys of the subtrees rooted at the given nodes. -/
def subtreeKeysList (gs : List GNode) : List String :=
  (descendantsList gs).map GNode.key

/-- The cache holds, for every statistic, exactly the from-scratch
value of node `d` under `d`'s key. -/
def freshAt (c : Cache) (d : GNode) : Prop :=
  c.total d.key = some (totalSpec d) ∧
  c.translated d.key = some (translatedSpec d) ∧
  c.fuzzy d.key = some (fuzzySpec d) ∧
  c.suggestions d.key = some (suggestionsSpec d) ∧
  c.last_action d.key = some (laSpec d) ∧
  c.checks d.key = some (checksSpec d) ∧
  c.mtime d.key = some (mtimeSpec d) ∧
  c.last_updated d.key = some (luSpec d)

/-- Every node of the subtree is fresh in the cache. -/
def freshAll (c : Cache) (n : GNode) : Prop :=
  ∀ d ∈ descendants n, freshAt c d

/-- Every node of the given subtrees is fresh in the cache. -/
def freshAllList (c : Cache) (gs : List GNode) : Prop :=
  ∀ d ∈ descendantsList gs, freshAt c d

/-- The two caches agree, for every statistic, on the entry under key
`q`. -/
def cacheEqAt (c1 c2 : Cache) (q : String) : Prop :=
  c1.total q = c2.total q ∧ c1.translated q = c2.translated q ∧
  c1.fuzzy q = c2.fuzzy q ∧ c1.suggestions q = c2.suggestions q ∧
  c1.last_action q = c2.last_action q ∧ c1.checks q = c2.checks q ∧
  c1.mtime q = c2.mtime q ∧ c1.last_updated q = c2.last_updated q

mutual

/-- Simultaneous induction over a node and the lists of nodes it
contains (parents and children alike). -/
def gnode_ind (P : GNode → Prop) (Q : List GNode → Prop)
    (hmk : ∀ k r ps cs, Q ps → Q cs → P (GNode.mk k r ps cs))
    (hnil : Q []) (hcons : ∀ g gs, P g → Q gs → Q (g :: gs)) :
    ∀ n, P n
  | GNode.mk k r ps cs =>
    hmk k r ps cs (gnode_list_ind P Q hmk hnil hcons ps)
      (gnode_list_ind P Q hmk hnil hcons cs)

/-- List part of `gnode_ind`. -/
def gnode_list_ind (P : GNode → Prop) (Q : List GNode → Prop)
    (hmk : ∀ k r ps cs, Q ps → Q cs → P (GNode.mk k r ps cs))
    (hnil : Q []) (hcons : ∀ g gs, P g → Q gs → Q (g :: gs)) :
    ∀ gs, Q gs
  | [] => hnil
  | g :: gs =>
    hcons g gs (gnode_ind P Q hmk hnil hcons g)
      (gnode_list_ind P Q hmk hnil hcons gs)

end

/-- Every cached `last_action` record carries an `mtime` of at most
`lm`. -/
def laBound (c : Cache) (lm : Nat) : Prop :=
  ∀ s a, c.last_action s = some a → ∃ m, a.mtime = some m ∧ m ≤ lm

/-!  Concrete fixtures used by witnesses and counterexamples. -/

/-- All-zero raw statistics (the base-class defaults). -/
def rawZero : Raw :=
  ⟨0, 0, 0, 0, ⟨0, some 0, ""⟩, ⟨0, fun _ => 0⟩, 0, ⟨0, some 0, ""⟩⟩

def c1_parent : GNode := GNode.mk "p" rawZero [] []
def c1_node : GNode := GNode.mk "n" rawZero [c1_parent] []
def c1_act : Action := ⟨7, some 5, "edit"⟩
def c1w_old : Action := ⟨1, some 1, "older"⟩
def c1w_cache : Cache := Cache.empty.setLastAction "p" c1w_old

def rawC2 : Raw := { rawZero with total := 7 }
def c2_leaf : GNode := GNode.mk "n" rawC2 [] []
def c2_cache : Cache := Cache.empty.setTotal "n" 999
def c2w_child : GNode := GNode.mk "b" rawZero [] []
def c2w_node : GNode := GNode.mk "a" rawC2 [] [c2w_child]
def c2w_cache : Cache := Cache.empty.setTotal "a" 999

def c4_node : GNode := GNode.mk "n" rawZero [] []
def c4_old : Action := ⟨1, some 10, "old"⟩
def c4_new : Action := ⟨2, some 5, "new"⟩
def c4_cache : Cache := Cache.empty.setLastAction "n" c4_old
def c4w_act : Action := ⟨3, some 99, "newest"⟩

def c6_childB : GNode := GNode.mk "b" rawZero [] []
def c6_childC : GNode := GNode.mk "c" rawZero [] []
def rawC6 : Raw := { rawZero with total := 5 }
def c6_node : GNode := GNode.mk "a" rawC6 [] [c6_childB, c6_childC]
def c6_cache : Cache := (Cache.empty.setTotal "b" 3).setTotal "c" 4

def c7_a5 : Action := ⟨1, some 5, "own"⟩
def c7_a3 : Action := ⟨2, some 3, "childB"⟩
def c7_a9 : Action := ⟨3, some 9, "childC"⟩
def rawC7 : Raw := { rawZero with last_action := c7_a5 }
def c7_node : GNode := GNode.mk "a" rawC7 [] [c6_childB, c6_childC]
def c7_cache : Cache :=
  (Cache.empty.setLastAction "b" c7_a3).setLastAction "c" c7_a9

def c8_own : ChecksRec := ⟨2, fun s => if s = "critical" then 1 else 0⟩
def c8_childAgg : ChecksRec :=
  ⟨3, fun s => if s = "critical" then 2 else if s = "warning" then 1 else 0⟩
def rawC8 : Raw := { rawZero with checks := c8_own }
def c8_node : GNode := GNode.mk "a" rawC8 [] [c6_childB]
def c8_cache : Cache := Cache.empty.setChecks "b" c8_childAgg

/-- Induction payload for the refresh theorem, node form: on a subtree
without parent links and with distinct cache keys, `refresh_stats` with
`include_children = true` leaves every subtree node's entries equal to
their from-scratch values and touches no entry outside the subtree's
keys. -/
def RefreshOK (n : GNode) : Prop :=
  ∀ c : Cache, noParents n = true → (subtreeKeys n).Nodup →
    freshAll (refresh_stats n true c).1 n ∧
    ∀ q, q ∉ subtreeKeys n → cacheEqAt (refresh_stats n true c).1 c q

/-- Induction payload for the refresh theorem, child-list form. -/
def RefreshOKList (gs : List GNode) : Prop :=
  ∀ c : Cache, noParentsList gs = true → (subtreeKeysList gs).Nodup →
    freshAllList (refresh_children gs c).1 gs ∧
    ∀ q, q ∉ subtreeKeysList gs → cacheEqAt (refresh_children gs c).1 c q

/-!  Basic lemmas. -/

theorem upd_same {α : Type} (f : String → Option α) (k : String)
    (v : Option α) : upd f k v k = v := by
  simp [upd]

theorem upd_other {α : Type} (f : String → Option α) {k q : String}
    (v : Option α) (h : q ≠ k) : upd f k v q = f q := by
  simp [upd, h]

theorem initialize_children_iter_done :
    ∀ (gc : List GNode) (s : NodeInstance), s.initialized = true →
      ∀ m, initialize_children_iter gc s m = (s, 0) := by
  intro gc s hs m
  induction m with
  | zero => rfl
  | succ m ih =>
    simp only [initialize_children_iter, initialize_children, hs, if_true, ih]

/-- Claim C9: `initialize_children` is idempotent per in-memory node
instance: starting from the freshly constructed state, any positive
number of calls invokes `get_children` exactly once, and the state after
the first call never changes again. -/
theorem c9_initialize_children_idempotent :
    ∀ (gc : List GNode) (m : Nat),
      initialize_children_iter gc NodeInstance.start (m + 1)
        = (⟨some gc, true, []⟩, 1) := by
  intro gc m
  have hdone := initialize_children_iter_done gc ⟨some gc, true, []⟩ rfl m
  simp [initialize_children_iter, initialize_children, NodeInstance.start, hdone]

theorem clear_cache_no_keys :
    (∀ (n : GNode) (pb cb : Bool) (c : Cache), _clear_cache n [] pb cb c = c) ∧
    (∀ (gs : List GNode),
      (∀ (pb : Bool) (c : Cache), clear_up gs [] pb c = c) ∧
      (∀ c : Cache, clear_down gs [] c = c)) := by
  constructor
  · intro n
    refine gnode_ind
      (fun n => ∀ (pb cb : Bool) (c : Cache), _clear_cache n [] pb cb c = c)
      (fun gs => (∀ (pb : Bool) (c : Cache), clear_up gs [] pb c = c) ∧
        (∀ c : Cache, clear_down gs [] c = c)) ?_ ?_ ?_ n
    · intro k r ps cs hps hcs pb cb c
      simp only [_clear_cache, List.foldl_nil]
      cases pb <;> cases cb <;>
        simp only [if_true, if_false, hps.1, hcs.2, Bool.false_eq_true, ite_false,
          ite_true]
    · exact ⟨fun _ _ => rfl, fun _ => rfl⟩
    · intro g gs hg hgs
      refine ⟨fun pb c => ?_, fun c => ?_⟩
      · simp only [clear_up, hg, hgs.1]
      · simp only [clear_down, hg, hgs.2]
  · intro gs
    induction gs with
    | nil => exact ⟨fun _ _ => rfl, fun _ => rfl⟩
    | cons g gs ih =>
      have hg : ∀ (pb cb : Bool) (c : Cache), _clear_cache g [] pb cb c = c := by
        intro pb cb c
        refine gnode_ind
          (fun n => ∀ (pb cb : Bool) (c : Cache), _clear_cache n [] pb cb c = c)
          (fun gs => (∀ (pb : Bool) (c : Cache), clear_up gs [] pb c = c) ∧
            (∀ c : Cache, clear_down gs [] c = c)) ?_ ?_ ?_ g pb cb c
        · intro k r ps cs hps hcs pb cb c
          simp only [_clear_cache, List.foldl_nil]
          cases pb <;> cases cb <;>
            simp only [if_true, if_false, hps.1, hcs.2, Bool.false_eq_true,
              ite_false, ite_true]
        · exact ⟨fun _ _ => rfl, fun _ => rfl⟩
        · intro g gs hg hgs
          refine ⟨fun pb c => ?_, fun c => ?_⟩
          · simp only [clear_up, hg, hgs.1]
          · simp only [clear_down, hg, hgs.2]
      refine ⟨fun pb c => ?_, fun c => ?_⟩
      · simp only [clear_up, hg, ih.1]
      · simp only [clear_down, hg, ih.2]

/-- Claim C10: with an empty pending-invalidation set,
`clear_flagged_cache` deletes nothing: the store is returned exactly as
it was (for any propagation flags), and the pending set stays empty. -/
theorem c10_clear_flagged_cache_empty_noop :
    ∀ (n : GNode) (pb cb : Bool) (c : Cache),
      clear_flagged_cache n [] pb cb c = (c, []) := by
  intro n pb cb c
  unfold clear_flagged_cache
  rw [clear_cache_no_keys.1 n pb cb c]

/-- Claim C3: in `refresh_stats` with `include_children = true`, the
clear-own-cache step attached to the `else` clause of the child loop
runs unconditionally (the loop has no `break`), in particular also when
the node has children: the node's key is always recorded in the trace of
clear-own-cache executions. -/
theorem c3_refresh_clear_always_runs :
    ∀ (k : String) (r : Raw) (ps cs : List GNode) (c : Cache),
      k ∈ (refresh_stats (GNode.mk k r ps cs) true c).2 := by
  intro k r ps cs c
  simp only [refresh_stats, if_true]
  simp

theorem delStat_total (c : Cache) (k : String) :
    Cache.delStat c k CachedMethods.TOTAL = { c with total := upd c.total k none } := by
  rfl

/-- Claim C5: on the chain A→B→C, flagging `total_wordcount` on C and
calling `clear_flagged_cache(C, parents=True, children=False)` removes
the `total_wordcount` entry of C, of B and of A, and resets C's pending
set to empty. -/
theorem c5_upward_propagation :
    ∀ (ka kb kc : String) (ra rb rcw : Raw) (csa csb csc : List GNode)
      (c : Cache),
      (clear_flagged_cache (GNode.mk kc rcw [GNode.mk kb rb
          [GNode.mk ka ra [] csa] csb] csc)
        (flag_for_deletion [] [CachedMethods.TOTAL]) true false c).1.total kc
          = none ∧
      (clear_flagged_cache (GNode.mk kc rcw [GNode.mk kb rb
          [GNode.mk ka ra [] csa] csb] csc)
        (flag_for_deletion [] [CachedMethods.TOTAL]) true false c).1.total kb
          = none ∧
      (clear_flagged_cache (GNode.mk kc rcw [GNode.mk kb rb
          [GNode.mk ka ra [] csa] csb] csc)
        (flag_for_deletion [] [CachedMethods.TOTAL]) true false c).1.total ka
          = none ∧
      (clear_flagged_cache (GNode.mk kc rcw [GNode.mk kb rb
          [GNode.mk ka ra [] csa] csb] csc)
        (flag_for_deletion [] [CachedMethods.TOTAL]) true false c).2 = [] := by
  intro ka kb kc ra rb rcw csa csb csc c
  have hflag : flag_for_deletion [] [CachedMethods.TOTAL] = [CachedMethods.TOTAL] := rfl
  simp only [hflag, clear_flagged_cache, _clear_cache, clear_up,
    List.foldl_cons, List.foldl_nil, delStat_total, List.isEmpty_cons,
    Bool.not_false, if_true, ite_true]
  refine ⟨?_, ?_, ?_, trivial⟩ <;> simp [upd]

/-!  Cache-hit behaviour of the getters. -/

theorem get_total_hit (n : GNode) (c : Cache) (v : Nat)
    (h : c.total n.key = some v) : get_total_wordcount n c = (v, c) := by
  cases n with
  | mk k r ps cs =>
    simp only [GNode.key] at h
    simp only [get_total_wordcount, h]

theorem sum_total_hits (f : GNode → Nat) :
    ∀ (gs : List GNode) (c : Cache),
      (∀ g ∈ gs, c.total g.key = some (f g)) →
      sum_total gs c = ((gs.map f).sum, c) := by
  intro gs
  induction gs with
  | nil => intro c _; rfl
  | cons g gs ih =>
    intro c h
    have hg := get_total_hit g c (f g) (h g (by simp))
    have hrest := ih c (fun x hx => h x (by simp [hx]))
    simp only [sum_total, hg, hrest, List.map_cons, List.sum_cons]

theorem get_last_action_hit (n : GNode) (c : Cache) (v : Action)
    (h : c.last_action n.key = some v) : get_last_action n c = (v, c) := by
  cases n with
  | mk k r ps cs =>
    simp only [GNode.key] at h
    simp only [get_last_action, h]

theorem list_last_action_hits (f : GNode → Action) :
    ∀ (gs : List GNode) (c : Cache),
      (∀ g ∈ gs, c.last_action g.key = some (f g)) →
      list_last_action gs c = (gs.map f, c) := by
  intro gs
  induction gs with
  | nil => intro c _; rfl
  | cons g gs ih =>
    intro c h
    have hg := get_last_action_hit g c (f g) (h g (by simp))
    have hrest := ih c (fun x hx => h x (by simp [hx]))
    simp only [list_last_action, hg, hrest, List.map_cons]

theorem get_checks_hit (n : GNode) (c : Cache) (v : ChecksRec)
    (h : c.checks n.key = some v) : get_checks n c = (v, c) := by
  cases n with
  | mk k r ps cs =>
    simp only [GNode.key] at h
    simp only [get_checks, h]

theorem go_checks_hits (f : GNode → ChecksRec) :
    ∀ (gs : List GNode) (acc : ChecksRec) (c : Cache),
      (∀ g ∈ gs, c.checks g.key = some (f g)) →
      go_checks gs acc c = (checksCombine f gs acc, c) := by
  intro gs
  induction gs with
  | nil => intro acc c _; rfl
  | cons g gs ih =>
    intro acc c h
    have hg := get_checks_hit g c (f g) (h g (by simp))
    have hrest := ih ⟨acc.unit_count + (f g).unit_count,
      dictsum acc.checks (f g).checks⟩ c (fun x hx => h x (by simp [hx]))
    simp only [go_checks, hg, hrest, checksCombine]

/-!  Properties of Python's `max` with a key function. -/

theorem pyMax_cons {α : Type} (keyf : α → Nat) (hd x : α) (xs : List α) :
    pyMax keyf hd (x :: xs) = pyMax keyf (if keyf hd < keyf x then x else hd) xs := by
  rfl

theorem pyMax_mem {α : Type} (keyf : α → Nat) :
    ∀ (tl : List α) (hd : α), pyMax keyf hd tl ∈ hd :: tl := by
  intro tl
  induction tl with
  | nil => intro hd; simp [pyMax]
  | cons x xs ih =>
    intro hd
    rw [pyMax_cons]
    rcases List.mem_cons.1 (ih (if keyf hd < keyf x then x else hd)) with h | h
    · rw [h]
      by_cases hc : keyf hd < keyf x <;> simp [hc]
    · simp [h]

theorem pyMax_le {α : Type} (keyf : α → Nat) :
    ∀ (tl : List α) (hd : α), ∀ y ∈ hd :: tl, keyf y ≤ keyf (pyMax keyf hd tl) := by
  intro tl
  induction tl with
  | nil => intro hd y hy; simp at hy; simp [pyMax, hy]
  | cons x xs ih =>
    intro hd y hy
    rw [pyMax_cons]
    have hb : keyf hd ≤ keyf (if keyf hd < keyf x then x else hd) := by
      split <;> omega
    have hx : keyf x ≤ keyf (if keyf hd < keyf x then x else hd) := by
      split <;> omega
    have hself := ih (if keyf hd < keyf x then x else hd)
      (if keyf hd < keyf x then x else hd) (by simp)
    rcases List.mem_cons.1 hy with h | h
    · subst h; exact le_trans hb hself
    · rcases List.mem_cons.1 h with h2 | h2
      · subst h2; exact le_trans hx hself
      · exact ih (if keyf hd < keyf x then x else hd) y (by simp [h2])

theorem pyMax_eq_of_strict {α : Type} (keyf : α → Nat) (tl : List α) (hd x : α)
    (hx : x ∈ hd :: tl)
    (hstrict : ∀ y ∈ hd :: tl, y ≠ x → keyf y < keyf x) :
    pyMax keyf hd tl = x := by
  by_cases h : pyMax keyf hd tl = x
  · exact h
  · have h1 := pyMax_le keyf tl hd x hx
    have h2 := hstrict _ (pyMax_mem keyf tl hd) h
    omega

/-!  Accumulation laws for `checks`. -/

theorem checksCombine_unit (f : GNode → ChecksRec) :
    ∀ (gs : List GNode) (acc : ChecksRec),
      (checksCombine f gs acc).unit_count
        = acc.unit_count + (gs.map (fun g => (f g).unit_count)).sum := by
  intro gs
  induction gs with
  | nil => intro acc; simp [checksCombine]
  | cons g gs ih =>
    intro acc
    simp only [checksCombine, ih, List.map_cons, List.sum_cons]
    omega

theorem checksCombine_checks (f : GNode → ChecksRec) :
    ∀ (gs : List GNode) (acc : ChecksRec) (s : String),
      (checksCombine f gs acc).checks s
        = acc.checks s + (gs.map (fun g => (f g).checks s)).sum := by
  intro gs
  induction gs with
  | nil => intro acc s; simp [checksCombine]
  | cons g gs ih =>
    intro acc s
    simp only [checksCombine, ih, List.map_cons, List.sum_cons, dictsum]
    omega

/-- Claim C6: on a cache miss for the node, with every child's
aggregated total cached, `get_total_wordcount` returns the node's raw
total plus the sum of the children's aggregated totals. -/
theorem c6_sum_law (k : String) (r : Raw) (ps cs : List GNode) (c : Cache)
    (f : GNode → Nat) (hmiss : c.total k = none)
    (hchild : ∀ g ∈ cs, c.total g.key = some (f g)) :
    (get_total_wordcount (GNode.mk k r ps cs) c).1
      = r.total + (cs.map f).sum := by
  simp only [get_total_wordcount, hmiss, sum_total_hits f cs c hchild]

/-- Witness for C6, the sum law at a concrete tree: raw total 5 and
cached child aggregates 3 and 4 yield 12. -/
theorem c6_sum_law_witness :
    (get_total_wordcount c6_node c6_cache).1 = 12 := by
  have h := c6_sum_law "a" rawC6 [] [c6_childB, c6_childC] c6_cache
    (fun g => if g.key = "b" then 3 else 4)
    (by decide)
    (by
      intro g hg
      rcases List.mem_cons.1 hg with h | h
      · subst h; decide
      · simp only [List.mem_singleton] at h; subst h; decide)
  simpa [c6_node, rawC6, rawZero, c6_childB, c6_childC, GNode.key] using h

/-- Claim C7: on a cache miss for the node, with every child's
aggregated `last_action` cached, `get_last_action` returns a record from
the candidate list (own raw record and the children's aggregates) whose
guarded `mtime` key (missing `mtime` counting as the minimal value 0) is
maximal; when one candidate's key strictly dominates all others, exactly
that record is returned. -/
theorem c7_max_by_mtime (k : String) (r : Raw) (ps cs : List GNode)
    (c : Cache) (f : GNode → Action) (hmiss : c.last_action k = none)
    (hchild : ∀ g ∈ cs, c.last_action g.key = some (f g)) :
    (get_last_action (GNode.mk k r ps cs) c).1 ∈ r.last_action :: cs.map f ∧
    (∀ x ∈ r.last_action :: cs.map f,
        laKey x ≤ laKey (get_last_action (GNode.mk k r ps cs) c).1) ∧
    (∀ x ∈ r.last_action :: cs.map f,
        (∀ y ∈ r.last_action :: cs.map f, y ≠ x → laKey y < laKey x) →
        (get_last_action (GNode.mk k r ps cs) c).1 = x) := by
  have hval : (get_last_action (GNode.mk k r ps cs) c).1
      = pyMax laKey r.last_action (cs.map f) := by
    simp only [get_last_action, hmiss, list_last_action_hits f cs c hchild]
  refine ⟨?_, ?_, ?_⟩
  · rw [hval]; exact pyMax_mem laKey (cs.map f) r.last_action
  · intro x hx; rw [hval]; exact pyMax_le laKey (cs.map f) r.last_action x hx
  · intro x hx hstrict
    rw [hval]
    exact pyMax_eq_of_strict laKey (cs.map f) r.last_action x hx hstrict

/-- Witness for C7, the max-by-mtime law at the example of the claim:
own raw record with mtime 5, cached child aggregates with mtimes 3 and
9; the child record with mtime 9 is returned. -/
theorem c7_max_by_mtime_witness :
    (get_last_action c7_node c7_cache).1 = c7_a9 := by
  have h := c7_max_by_mtime "a" rawC7 [] [c6_childB, c6_childC] c7_cache
    (fun g => if g.key = "b" then c7_a3 else c7_a9)
    (by decide)
    (by
      intro g hg
      rcases List.mem_cons.1 hg with h | h
      · subst h; decide
      · simp only [List.mem_singleton] at h; subst h; decide)
  have h3 := h.2.2 c7_a9 (by decide) (by decide)
  simpa [c7_node, rawC7, c6_childB, c6_childC] using h3

/-- Claim C8: on a cache miss for the node, with every child's
aggregated checks record cached, `get_checks` returns the sum of all
`unit_count`s and the key-wise sum of all category maps (a missing key
counting as 0). -/
theorem c8_checks_dict_sum (k : String) (r : Raw) (ps cs : List GNode)
    (c : Cache) (f : GNode → ChecksRec) (hmiss : c.checks k = none)
    (hchild : ∀ g ∈ cs, c.checks g.key = some (f g)) :
    (get_checks (GNode.mk k r ps cs) c).1.unit_count
      = r.checks.unit_count + (cs.map (fun g => (f g).unit_count)).sum ∧
    ∀ s, (get_checks (GNode.mk k r ps cs) c).1.checks s
      = r.checks.checks s + (cs.map (fun g => (f g).checks s)).sum := by
  have hval : (get_checks (GNode.mk k r ps cs) c).1
      = checksCombine f cs r.checks := by
    simp only [get_checks, hmiss, go_checks_hits f cs r.checks c hchild]
  constructor
  · rw [hval]; exact checksCombine_unit f cs r.checks
  · intro s; rw [hval]; exact checksCombine_checks f cs r.checks s

/-- Witness for C8, the dict-sum law at the example of the claim: own
raw `{unit_count 2, {critical 1}}` plus one cached child aggregate
`{unit_count 3, {critical 2, warning 1}}` yields
`{unit_count 5, {critical 3, warning 1}}`. -/
theorem c8_checks_dict_sum_witness :
    (get_checks c8_node c8_cache).1.unit_count = 5 ∧
    (get_checks c8_node c8_cache).1.checks "critical" = 3 ∧
    (get_checks c8_node c8_cache).1.checks "warning" = 1 := by
  have h := c8_checks_dict_sum "a" rawC8 [] [c6_childB] c8_cache
    (fun _ => c8_childAgg)
    (by
      show (Cache.empty.setChecks "b" c8_childAgg).checks "a" = none
      simp [Cache.setChecks, Cache.empty, upd])
    (by
      intro g hg
      simp only [List.mem_singleton] at hg; subst hg
      show (Cache.empty.setChecks "b" c8_childAgg).checks "b" = some c8_childAgg
      simp [Cache.setChecks, Cache.empty, upd, c6_childB, GNode.key])
  refine ⟨?_, ?_, ?_⟩
  · have := h.1
    simpa [rawC8, rawZero, c8_own, c8_childAgg] using this
  · have := h.2 "critical"
    simpa [rawC8, rawZero, c8_own, c8_childAgg] using this
  · have := h.2 "warning"
    simpa [rawC8, rawZero, c8_own, c8_childAgg] using this

/-- Claim C1 (amended): after writing the action into the node's own
`last_action` entry, `set_last_action` recurses into a parent if and
only if that parent's currently cached `last_action` is PRESENT and has
an `mtime` strictly smaller than the action's `mtime`; when the parent
has no cached `last_action`, no recursive call is made (characterised
here for a node with a single parent). -/
theorem c1_set_last_action_guard (k : String) (r : Raw) (p : GNode)
    (cs : List GNode) (la : Action) (lm : Nat) (c : Cache)
    (hm : la.mtime = some lm) :
    ((c.setLastAction k la).last_action p.key = none →
        set_last_action (GNode.mk k r [p] cs) la c
          = some (c.setLastAction k la)) ∧
    (∀ pla pm, (c.setLastAction k la).last_action p.key = some pla →
        pla.mtime = some pm → ¬ pm < lm →
        set_last_action (GNode.mk k r [p] cs) la c
          = some (c.setLastAction k la)) ∧
    (∀ pla pm, (c.setLastAction k la).last_action p.key = some pla →
        pla.mtime = some pm → pm < lm →
        set_last_action (GNode.mk k r [p] cs) la c
          = set_last_action p la (c.setLastAction k la)) := by
  refine ⟨?_, ?_, ?_⟩
  · intro habs
    simp only [set_last_action, sla_parents, habs]
  · intro pla pm hpres hpm hnl
    simp only [set_last_action, sla_parents, hpres, hpm, hm, hnl, if_false,
      ite_false]
  · intro pla pm hpres hpm hlt
    simp only [set_last_action, sla_parents, hpres, hpm, hm, hlt, if_true,
      ite_true]
    cases hres : set_last_action p la (c.setLastAction k la) with
    | none => rfl
    | some cNew => simp only [sla_parents]

/-- Witness for C1: a concrete node whose single parent has a cached
`last_action` with mtime 1 < 5; the propagation branch is taken. -/
theorem c1_set_last_action_guard_witness :
    set_last_action c1_node c1_act c1w_cache
      = set_last_action c1_parent c1_act (c1w_cache.setLastAction "n" c1_act) := by
  have h := (c1_set_last_action_guard "n" rawZero c1_parent [] c1_act 5
    c1w_cache rfl).2.2 c1w_old 1
    (by decide) rfl (by decide)
  simpa [c1_node] using h

/-- Counterexample for C1 as stated: with an empty cache the parent has
no cached `last_action`, yet `set_last_action` makes no recursive call —
the parent's entry stays absent (had the recursion happened, its first
step would have written the action under the parent's key), while the
node's own entry is written. -/
theorem c1_counterexample :
    (set_last_action c1_node c1_act Cache.empty).map
        (fun c => c.last_action "p") = some none ∧
    (set_last_action c1_node c1_act Cache.empty).map
        (fun c => c.last_action "n") = some (some c1_act) := by
  constructor <;> rfl

/-!  Monotone-overwrite helper for `set_last_action`. -/

theorem sla_writes_only_la :
    (∀ (n : GNode) (la : Action) (lm : Nat) (c : Cache),
      la.mtime = some lm → laBound c lm →
      ∃ cNew, set_last_action n la c = some cNew ∧
        ∀ s, cNew.last_action s = c.last_action s ∨
          cNew.last_action s = some la) ∧
    (∀ (gs : List GNode) (la : Action) (lm : Nat) (c : Cache),
      la.mtime = some lm → laBound c lm →
      ∃ cNew, sla_parents gs la c = some cNew ∧
        ∀ s, cNew.last_action s = c.last_action s ∨
          cNew.last_action s = some la) := by
  have hband : ∀ (la : Action) (lm : Nat) (c c2 : Cache),
      la.mtime = some lm → laBound c lm →
      (∀ s, c2.last_action s = c.last_action s ∨ c2.last_action s = some la) →
      laBound c2 lm := by
    intro la lm c c2 hm hb hdisj s a ha
    rcases hdisj s with h | h
    · exact hb s a (h ▸ ha)
    · rw [h] at ha
      exact ⟨lm, by simp only [← Option.some_inj.1 ha, hm], le_refl lm⟩
  have main : ∀ n : GNode, ∀ (la : Action) (lm : Nat) (c : Cache),
      la.mtime = some lm → laBound c lm →
      ∃ cNew, set_last_action n la c = some cNew ∧
        ∀ s, cNew.last_action s = c.last_action s ∨
          cNew.last_action s = some la := by
    intro n
    refine gnode_ind
      (fun n => ∀ (la : Action) (lm : Nat) (c : Cache),
        la.mtime = some lm → laBound c lm →
        ∃ cNew, set_last_action n la c = some cNew ∧
          ∀ s, cNew.last_action s = c.last_action s ∨
            cNew.last_action s = some la)
      (fun gs => ∀ (la : Action) (lm : Nat) (c : Cache),
        la.mtime = some lm → laBound c lm →
        ∃ cNew, sla_parents gs la c = some cNew ∧
          ∀ s, cNew.last_action s = c.last_action s ∨
            cNew.last_action s = some la) ?_ ?_ ?_ n
    · intro k r ps cs hps _ la lm c hm hb
      have hdisj1 : ∀ s, (c.setLastAction k la).last_action s
          = c.last_action s ∨ (c.setLastAction k la).last_action s = some la := by
        intro s
        by_cases hs : s = k
        · subst hs
          right; simp [Cache.setLastAction, upd_same]
        · left; simp [Cache.setLastAction, upd_other _ _ hs]
      have hb1 : laBound (c.setLastAction k la) lm := hband la lm c _ hm hb hdisj1
      rcases hps la lm (c.setLastAction k la) hm hb1 with ⟨cNew, heq, hdisj2⟩
      refine ⟨cNew, ?_, ?_⟩
      · simp only [set_last_action, heq]
      · intro s
        rcases hdisj2 s with h | h
        · rcases hdisj1 s with h2 | h2
          · left; rw [h, h2]
          · right; rw [h, h2]
        · right; exact h
    · intro la lm c _ _
      exact ⟨c, rfl, fun s => Or.inl rfl⟩
    · intro p ps hp hps la lm c hm hb
      cases hpl : c.last_action p.key with
      | none =>
        rcases hps la lm c hm hb with ⟨cNew, heq, hdisj⟩
        exact ⟨cNew, by simp only [sla_parents, hpl, heq], hdisj⟩
      | some pla =>
        rcases hb p.key pla hpl with ⟨pm, hpm, hple⟩
        by_cases hlt : pm < lm
        · rcases hp la lm c hm hb with ⟨cMid, heqMid, hdisjMid⟩
          have hbMid : laBound cMid lm := hband la lm c cMid hm hb hdisjMid
          rcases hps la lm cMid hm hbMid with ⟨cNew, heq, hdisj⟩
          refine ⟨cNew, ?_, ?_⟩
          · simp only [sla_parents, hpl, hpm, hm, hlt, if_true, ite_true,
              heqMid, heq]
          · intro s
            rcases hdisj s with h | h
            · rcases hdisjMid s with h2 | h2
              · left; rw [h, h2]
              · right; rw [h, h2]
            · right; exact h
        · rcases hps la lm c hm hb with ⟨cNew, heq, hdisj⟩
          refine ⟨cNew, ?_, hdisj⟩
          simp only [sla_parents, hpl, hpm, hm, hlt, if_false, ite_false, heq]
  constructor
  · exact main
  · intro gs
    induction gs with
    | nil => intro la lm c _ _; exact ⟨c, rfl, fun s => Or.inl rfl⟩
    | cons p ps ih =>
      intro la lm c hm hb
      cases hpl : c.last_action p.key with
      | none =>
        rcases ih la lm c hm hb with ⟨cNew, heq, hdisj⟩
        exact ⟨cNew, by simp only [sla_parents, hpl, heq], hdisj⟩
      | some pla =>
        rcases hb p.key pla hpl with ⟨pm, hpm, hple⟩
        by_cases hlt : pm < lm
        · rcases main p la lm c hm hb with ⟨cMid, heqMid, hdisjMid⟩
          have hbMid : laBound cMid lm := hband la lm c cMid hm hb hdisjMid
          rcases ih la lm cMid hm hbMid with ⟨cNew, heq, hdisj⟩
          refine ⟨cNew, ?_, ?_⟩
          · simp only [sla_parents, hpl, hpm, hm, hlt, if_true, ite_true,
              heqMid, heq]
          · intro s
            rcases hdisj s with h | h
            · rcases hdisjMid s with h2 | h2
              · left; rw [h, h2]
              · right; rw [h, h2]
            · right; exact h
        · rcases ih la lm c hm hb with ⟨cNew, heq, hdisj⟩
          refine ⟨cNew, ?_, hdisj⟩
          simp only [sla_parents, hpl, hpm, hm, hlt, if_false, ite_false, heq]

/-- Claim C4 (amended): provided the action's `mtime` is at least the
`mtime` of every currently cached `last_action`, `set_last_action`
completes, every entry afterwards is either unchanged or the new action,
and no cached `last_action`'s `mtime` decreases.  Without that proviso
the claim fails: the target node's own entry is overwritten
unconditionally (see the counterexample). -/
theorem c4_set_last_action_monotone (n : GNode) (la : Action) (lm : Nat)
    (c : Cache) (hm : la.mtime = some lm) (hb : laBound c lm) :
    ∃ cNew, set_last_action n la c = some cNew ∧
      (∀ s, cNew.last_action s = c.last_action s ∨
        cNew.last_action s = some la) ∧
      (∀ s a0 m0 a m, c.last_action s = some a0 → a0.mtime = some m0 →
        cNew.last_action s = some a → a.mtime = some m → m0 ≤ m) := by
  rcases sla_writes_only_la.1 n la lm c hm hb with ⟨cNew, heq, hdisj⟩
  refine ⟨cNew, heq, hdisj, ?_⟩
  intro s a0 m0 a m h0 hm0 hnewA hmA
  rcases hdisj s with h | h
  · rw [h, h0] at hnewA
    have ha : a0 = a := Option.some_inj.1 hnewA
    subst ha
    rw [hm0] at hmA
    have : m0 = m := Option.some_inj.1 hmA
    omega
  · rw [h] at hnewA
    have ha : la = a := Option.some_inj.1 hnewA
    subst ha
    rw [hm] at hmA
    have hlmm : lm = m := Option.some_inj.1 hmA
    rcases hb s a0 h0 with ⟨m0b, hm0b, hleb⟩
    rw [hm0] at hm0b
    have : m0 = m0b := Option.some_inj.1 hm0b
    omega

/-- Witness for C4: the monotone overwrite applies at a concrete node
and an empty store (the bound holds vacuously). -/
theorem c4_set_last_action_monotone_witness :
    (set_last_action c4_node c4w_act Cache.empty).isSome = true := by
  rcases c4_set_last_action_monotone c4_node c4w_act 99 Cache.empty rfl
    (by intro s a h; simp [Cache.empty] at h) with ⟨cNew, heq, _, _⟩
  rw [heq]
  rfl

/-- Counterexample for C4 as stated: the node's cached `last_action` has
mtime 10, `set_last_action` is called with an action of mtime 5, and the
cached record is replaced by the strictly older action. -/
theorem c4_counterexample :
    (set_last_action c4_node c4_new c4_cache).map
        (fun c => c.last_action "n") = some (some c4_new) ∧
    laKey c4_new < laKey c4_old := by
  constructor
  · rfl
  · decide

/-!  Machinery for the refresh claim: cache-hit lemmas for the
remaining getters and bridges between the list-spec functions and list
combinators. -/

theorem get_translated_hit (n : GNode) (c : Cache) (v : Nat)
    (h : c.translated n.key = some v) : get_translated_wordcount n c = (v, c) := by
  cases n with
  | mk k r ps cs =>
    simp only [GNode.key] at h
    simp only [get_translated_wordcount, h]

theorem sum_translated_hits (f : GNode → Nat) :
    ∀ (gs : List GNode) (c : Cache),
      (∀ g ∈ gs, c.translated g.key = some (f g)) →
      sum_translated gs c = ((gs.map f).sum, c) := by
  intro gs
  induction gs with
  | nil => intro c _; rfl
  | cons g gs ih =>
    intro c h
    have hg := get_translated_hit g c (f g) (h g (by simp))
    have hrest := ih c (fun x hx => h x (by simp [hx]))
    simp only [sum_translated, hg, hrest, List.map_cons, List.sum_cons]

theorem get_fuzzy_hit (n : GNode) (c : Cache) (v : Nat)
    (h : c.fuzzy n.key = some v) : get_fuzzy_wordcount n c = (v, c) := by
  cases n with
  | mk k r ps cs =>
    simp only [GNode.key] at h
    simp only [get_fuzzy_wordcount, h]

theorem sum_fuzzy_hits (f : GNode → Nat) :
    ∀ (gs : List GNode) (c : Cache),
      (∀ g ∈ gs, c.fuzzy g.key = some (f g)) →
      sum_fuzzy gs c = ((gs.map f).sum, c) := by
  intro gs
  induction gs with
  | nil => intro c _; rfl
  | cons g gs ih =>
    intro c h
    have hg := get_fuzzy_hit g c (f g) (h g (by simp))
    have hrest := ih c (fun x hx => h x (by simp [hx]))
    simp only [sum_fuzzy, hg, hrest, List.map_cons, List.sum_cons]

theorem get_suggestion_hit (n : GNode) (c : Cache) (v : Nat)
    (h : c.suggestions n.key = some v) : get_suggestion_count n c = (v, c) := by
  cases n with
  | mk k r ps cs =>
    simp only [GNode.key] at h
    simp only [get_suggestion_count, h]

theorem sum_suggestions_hits (f : GNode → Nat) :
    ∀ (gs : List GNode) (c : Cache),
      (∀ g ∈ gs, c.suggestions g.key = some (f g)) →
      sum_suggestions gs c = ((gs.map f).sum, c) := by
  intro gs
  induction gs with
  | nil => intro c _; rfl
  | cons g gs ih =>
    intro c h
    have hg := get_suggestion_hit g c (f g) (h g (by simp))
    have hrest := ih c (fun x hx => h x (by simp [hx]))
    simp only [sum_suggestions, hg, hrest, List.map_cons, List.sum_cons]

theorem get_mtime_hit (n : GNode) (c : Cache) (v : Nat)
    (h : c.mtime n.key = some v) : get_mtime n c = (v, c) := by
  cases n with
  | mk k r ps cs =>
    simp only [GNode.key] at h
    simp only [get_mtime, h]

theorem list_mtime_hits (f : GNode → Nat) :
    ∀ (gs : List GNode) (c : Cache),
      (∀ g ∈ gs, c.mtime g.key = some (f g)) →
      list_mtime gs c = (gs.map f, c) := by
  intro gs
  induction gs with
  | nil => intro c _; rfl
  | cons g gs ih =>
    intro c h
    have hg := get_mtime_hit g c (f g) (h g (by simp))
    have hrest := ih c (fun x hx => h x (by simp [hx]))
    simp only [list_mtime, hg, hrest, List.map_cons]

theorem get_last_updated_hit (n : GNode) (c : Cache) (v : Updated)
    (h : c.last_updated n.key = some v) : get_last_updated n c = (v, c) := by
  cases n with
  | mk k r ps cs =>
    simp only [GNode.key] at h
    simp only [get_last_updated, h]

theorem list_last_updated_hits (f : GNode → Updated) :
    ∀ (gs : List GNode) (c : Cache),
      (∀ g ∈ gs, c.last_updated g.key = some (f g)) →
      list_last_updated gs c = (gs.map f, c) := by
  intro gs
  induction gs with
  | nil => intro c _; rfl
  | cons g gs ih =>
    intro c h
    have hg := get_last_updated_hit g c (f g) (h g (by simp))
    have hrest := ih c (fun x hx => h x (by simp [hx]))
    simp only [list_last_updated, hg, hrest, List.map_cons]

theorem totalSpecList_eq : ∀ gs : List GNode,
    totalSpecList gs = (gs.map totalSpec).sum := by
  intro gs
  induction gs with
  | nil => rfl
  | cons g gs ih => simp [totalSpecList, ih]

theorem translatedSpecList_eq : ∀ gs : List GNode,
    translatedSpecList gs = (gs.map translatedSpec).sum := by
  intro gs
  induction gs with
  | nil => rfl
  | cons g gs ih => simp [translatedSpecList, ih]

theorem fuzzySpecList_eq : ∀ gs : List GNode,
    fuzzySpecList gs = (gs.map fuzzySpec).sum := by
  intro gs
  induction gs with
  | nil => rfl
  | cons g gs ih => simp [fuzzySpecList, ih]

theorem suggestionsSpecList_eq : ∀ gs : List GNode,
    suggestionsSpecList gs = (gs.map suggestionsSpec).sum := by
  intro gs
  induction gs with
  | nil => rfl
  | cons g gs ih => simp [suggestionsSpecList, ih]

theorem laSpecList_eq : ∀ gs : List GNode, laSpecList gs = gs.map laSpec := by
  intro gs
  induction gs with
  | nil => rfl
  | cons g gs ih => simp [laSpecList, ih]

theorem mtimeSpecList_eq : ∀ gs : List GNode,
    mtimeSpecList gs = gs.map mtimeSpec := by
  intro gs
  induction gs with
  | nil => rfl
  | cons g gs ih => simp [mtimeSpecList, ih]

theorem luSpecList_eq : ∀ gs : List GNode, luSpecList gs = gs.map luSpec := by
  intro gs
  induction gs with
  | nil => rfl
  | cons g gs ih => simp [luSpecList, ih]

theorem checksSpecGo_eq : ∀ (gs : List GNode) (acc : ChecksRec),
    checksSpecGo gs acc = checksCombine checksSpec gs acc := by
  intro gs
  induction gs with
  | nil => intro acc; rfl
  | cons g gs ih => intro acc; simp only [checksSpecGo, checksCombine, ih]

/-!  Miss-path behaviour of the getters when every child aggregate is
freshly cached: the from-scratch value is computed and stored. -/

theorem get_total_fresh (k : String) (r : Raw) (ps cs : List GNode) (c : Cache)
    (hmiss : c.total k = none)
    (hchild : ∀ g ∈ cs, c.total g.key = some (totalSpec g)) :
    get_total_wordcount (GNode.mk k r ps cs) c
      = (totalSpec (GNode.mk k r ps cs),
         c.setTotal k (totalSpec (GNode.mk k r ps cs))) := by
  simp only [get_total_wordcount, hmiss, sum_total_hits totalSpec cs c hchild,
    totalSpec, totalSpecList_eq]

theorem get_translated_fresh (k : String) (r : Raw) (ps cs : List GNode)
    (c : Cache) (hmiss : c.translated k = none)
    (hchild : ∀ g ∈ cs, c.translated g.key = some (translatedSpec g)) :
    get_translated_wordcount (GNode.mk k r ps cs) c
      = (translatedSpec (GNode.mk k r ps cs),
         c.setTranslated k (translatedSpec (GNode.mk k r ps cs))) := by
  simp only [get_translated_wordcount, hmiss,
    sum_translated_hits translatedSpec cs c hchild, translatedSpec,
    translatedSpecList_eq]

theorem get_fuzzy_fresh (k : String) (r : Raw) (ps cs : List GNode) (c : Cache)
    (hmiss : c.fuzzy k = none)
    (hchild : ∀ g ∈ cs, c.fuzzy g.key = some (fuzzySpec g)) :
    get_fuzzy_wordcount (GNode.mk k r ps cs) c
      = (fuzzySpec (GNode.mk k r ps cs),
         c.setFuzzy k (fuzzySpec (GNode.mk k r ps cs))) := by
  simp only [get_fuzzy_wordcount, hmiss, sum_fuzzy_hits fuzzySpec cs c hchild,
    fuzzySpec, fuzzySpecList_eq]

theorem get_suggestions_fresh (k : String) (r : Raw) (ps cs : List GNode)
    (c : Cache) (hmiss : c.suggestions k = none)
    (hchild : ∀ g ∈ cs, c.suggestions g.key = some (suggestionsSpec g)) :
    get_suggestion_count (GNode.mk k r ps cs) c
      = (suggestionsSpec (GNode.mk k r ps cs),
         c.setSuggestions k (suggestionsSpec (GNode.mk k r ps cs))) := by
  simp only [get_suggestion_count, hmiss,
    sum_suggestions_hits suggestionsSpec cs c hchild, suggestionsSpec,
    suggestionsSpecList_eq]

theorem get_last_action_fresh (k : String) (r : Raw) (ps cs : List GNode)
    (c : Cache) (hmiss : c.last_action k = none)
    (hchild : ∀ g ∈ cs, c.last_action g.key = some (laSpec g)) :
    get_last_action (GNode.mk k r ps cs) c
      = (laSpec (GNode.mk k r ps cs),
         c.setLastAction k (laSpec (GNode.mk k r ps cs))) := by
  simp only [get_last_action, hmiss, list_last_action_hits laSpec cs c hchild,
    laSpec, laSpecList_eq]

theorem get_mtime_fresh (k : String) (r : Raw) (ps cs : List GNode) (c : Cache)
    (hmiss : c.mtime k = none)
    (hchild : ∀ g ∈ cs, c.mtime g.key = some (mtimeSpec g)) :
    get_mtime (GNode.mk k r ps cs) c
      = (mtimeSpec (GNode.mk k r ps cs),
         c.setMtime k (mtimeSpec (GNode.mk k r ps cs))) := by
  simp only [get_mtime, hmiss, list_mtime_hits mtimeSpec cs c hchild,
    mtimeSpec, mtimeSpecList_eq]

theorem get_last_updated_fresh (k : String) (r : Raw) (ps cs : List GNode)
    (c : Cache) (hmiss : c.last_updated k = none)
    (hchild : ∀ g ∈ cs, c.last_updated g.key = some (luSpec g)) :
    get_last_updated (GNode.mk k r ps cs) c
      = (luSpec (GNode.mk k r ps cs),
         c.setLastUpdated k (luSpec (GNode.mk k r ps cs))) := by
  simp only [get_last_updated, hmiss,
    list_last_updated_hits luSpec cs c hchild, luSpec, luSpecList_eq]

theorem get_checks_fresh (k : String) (r : Raw) (ps cs : List GNode)
    (c : Cache) (hmiss : c.checks k = none)
    (hchild : ∀ g ∈ cs, c.checks g.key = some (checksSpec g)) :
    get_checks (GNode.mk k r ps cs) c
      = (checksSpec (GNode.mk k r ps cs),
         c.setChecks k (checksSpec (GNode.mk k r ps cs))) := by
  simp only [get_checks, hmiss, go_checks_hits checksSpec cs r.checks c hchild,
    checksSpec, checksSpecGo_eq]

/-!  Subtree bookkeeping. -/

theorem self_mem_descendants : ∀ n : GNode, n ∈ descendants n := by
  intro n
  cases n with
  | mk k r ps cs => simp [descendants]

theorem descendants_sub_descList :
    ∀ (gs : List GNode) (g : GNode), g ∈ gs →
      ∀ d ∈ descendants g, d ∈ descendantsList gs := by
  intro gs
  induction gs with
  | nil => intro g hg; simp at hg
  | cons x xs ih =>
    intro g hg d hd
    rcases List.mem_cons.1 hg with h | h
    · subst h
      simp only [descendantsList, List.mem_append]
      exact Or.inl hd
    · simp only [descendantsList, List.mem_append]
      exact Or.inr (ih g h d hd)

theorem child_mem_descList :
    ∀ (gs : List GNode) (g : GNode), g ∈ gs → g ∈ descendantsList gs := by
  intro gs g hg
  exact descendants_sub_descList gs g hg g (self_mem_descendants g)

theorem subtreeKeys_mk (k : String) (r : Raw) (ps cs : List GNode) :
    subtreeKeys (GNode.mk k r ps cs) = k :: subtreeKeysList cs := by
  simp [subtreeKeys, subtreeKeysList, descendants, GNode.key]

theorem subtreeKeysList_cons (g : GNode) (gs : List GNode) :
    subtreeKeysList (g :: gs) = subtreeKeys g ++ subtreeKeysList gs := by
  simp [subtreeKeys, subtreeKeysList, descendantsList]

theorem key_mem_subtreeKeysList :
    ∀ (gs : List GNode) (d : GNode), d ∈ descendantsList gs →
      d.key ∈ subtreeKeysList gs := by
  intro gs d hd
  exact List.mem_map_of_mem GNode.key hd

theorem key_mem_subtreeKeys :
    ∀ (n d : GNode), d ∈ descendants n → d.key ∈ subtreeKeys n := by
  intro n d hd
  exact List.mem_map_of_mem GNode.key hd

theorem noParents_mk (k : String) (r : Raw) (ps cs : List GNode)
    (h : noParents (GNode.mk k r ps cs) = true) :
    ps = [] ∧ noParentsList cs = true := by
  simp only [noParents, Bool.and_eq_true, List.isEmpty_iff] at h
  exact h

theorem noParentsList_cons (g : GNode) (gs : List GNode)
    (h : noParentsList (g :: gs) = true) :
    noParents g = true ∧ noParentsList gs = true := by
  simp only [noParentsList, Bool.and_eq_true] at h
  exact h

/-!  Transfer lemmas for the fresh/frame predicates. -/

theorem cacheEqAt_refl (c : Cache) (q : String) : cacheEqAt c c q := by
  simp [cacheEqAt]

theorem cacheEqAt_trans {c1 c2 c3 : Cache} {q : String}
    (h1 : cacheEqAt c1 c2 q) (h2 : cacheEqAt c2 c3 q) : cacheEqAt c1 c3 q := by
  obtain ⟨a1, a2, a3, a4, a5, a6, a7, a8⟩ := h1
  obtain ⟨b1, b2, b3, b4, b5, b6, b7, b8⟩ := h2
  exact ⟨a1.trans b1, a2.trans b2, a3.trans b3, a4.trans b4, a5.trans b5,
    a6.trans b6, a7.trans b7, a8.trans b8⟩

theorem freshAt_of_eqAt {c c2 : Cache} {d : GNode}
    (hf : freshAt c d) (he : cacheEqAt c2 c d.key) : freshAt c2 d := by
  obtain ⟨f1, f2, f3, f4, f5, f6, f7, f8⟩ := hf
  obtain ⟨e1, e2, e3, e4, e5, e6, e7, e8⟩ := he
  exact ⟨e1.trans f1, e2.trans f2, e3.trans f3, e4.trans f4, e5.trans f5,
    e6.trans f6, e7.trans f7, e8.trans f8⟩

/-- Effect of the clear-own-cache step of `refresh_stats` on a node
without parent links: every statistic's entry under the node's key is
deleted and nothing else changes. -/
theorem clear_all_explicit (k : String) (r : Raw) (cs : List GNode)
    (c : Cache) :
    (clear_all_cache (GNode.mk k r [] cs) [] false true c).1 =
      ⟨upd c.total k none, upd c.translated k none, upd c.fuzzy k none,
       upd c.suggestions k none, upd c.last_action k none,
       upd c.checks k none, upd c.mtime k none,
       upd c.last_updated k none⟩ := by
  rfl

/-- Reading all eight statistics on a node whose own entries are all
absent while every child subtree is freshly cached computes and stores
exactly the from-scratch values of the node. -/
theorem read_all_fresh (k : String) (r : Raw) (ps cs : List GNode) (c : Cache)
    (h1 : c.total k = none) (h2 : c.translated k = none)
    (h3 : c.fuzzy k = none) (h4 : c.suggestions k = none)
    (h5 : c.last_action k = none) (h6 : c.checks k = none)
    (h7 : c.mtime k = none) (h8 : c.last_updated k = none)
    (hch : ∀ d ∈ descendantsList cs, freshAt c d) :
    read_all_stats (GNode.mk k r ps cs) c =
      ⟨upd c.total k (some (totalSpec (GNode.mk k r ps cs))),
       upd c.translated k (some (translatedSpec (GNode.mk k r ps cs))),
       upd c.fuzzy k (some (fuzzySpec (GNode.mk k r ps cs))),
       upd c.suggestions k (some (suggestionsSpec (GNode.mk k r ps cs))),
       upd c.last_action k (some (laSpec (GNode.mk k r ps cs))),
       upd c.checks k (some (checksSpec (GNode.mk k r ps cs))),
       upd c.mtime k (some (mtimeSpec (GNode.mk k r ps cs))),
       upd c.last_updated k (some (luSpec (GNode.mk k r ps cs)))⟩ := by
  have hchT : ∀ g ∈ cs, c.total g.key = some (totalSpec g) :=
    fun g hg => (hch g (child_mem_descList cs g hg)).1
  have hchTr : ∀ g ∈ cs, c.translated g.key = some (translatedSpec g) :=
    fun g hg => (hch g (child_mem_descList cs g hg)).2.1
  have hchF : ∀ g ∈ cs, c.fuzzy g.key = some (fuzzySpec g) :=
    fun g hg => (hch g (child_mem_descList cs g hg)).2.2.1
  have hchS : ∀ g ∈ cs, c.suggestions g.key = some (suggestionsSpec g) :=
    fun g hg => (hch g (child_mem_descList cs g hg)).2.2.2.1
  have hchLA : ∀ g ∈ cs, c.last_action g.key = some (laSpec g) :=
    fun g hg => (hch g (child_mem_descList cs g hg)).2.2.2.2.1
  have hchC : ∀ g ∈ cs, c.checks g.key = some (checksSpec g) :=
    fun g hg => (hch g (child_mem_descList cs g hg)).2.2.2.2.2.1
  have hchM : ∀ g ∈ cs, c.mtime g.key = some (mtimeSpec g) :=
    fun g hg => (hch g (child_mem_descList cs g hg)).2.2.2.2.2.2.1
  have hchLU : ∀ g ∈ cs, c.last_updated g.key = some (luSpec g) :=
    fun g hg => (hch g (child_mem_descList cs g hg)).2.2.2.2.2.2.2
  have e1 : (get_total_wordcount (GNode.mk k r ps cs) c).2
      = c.setTotal k (totalSpec (GNode.mk k r ps cs)) := by
    rw [get_total_fresh k r ps cs c h1 hchT]
  have e2 : (get_translated_wordcount (GNode.mk k r ps cs)
        (c.setTotal k (totalSpec (GNode.mk k r ps cs)))).2
      = (c.setTotal k (totalSpec (GNode.mk k r ps cs))).setTranslated k
          (translatedSpec (GNode.mk k r ps cs)) := by
    rw [get_translated_fresh k r ps cs]
    · exact h2
    · exact hchTr
  have e3 : (get_fuzzy_wordcount (GNode.mk k r ps cs)
        ((c.setTotal k (totalSpec (GNode.mk k r ps cs))).setTranslated k
          (translatedSpec (GNode.mk k r ps cs)))).2
      = ((c.setTotal k (totalSpec (GNode.mk k r ps cs))).setTranslated k
          (translatedSpec (GNode.mk k r ps cs))).setFuzzy k
          (fuzzySpec (GNode.mk k r ps cs)) := by
    rw [get_fuzzy_fresh k r ps cs]
    · exact h3
    · exact hchF
  have e4 : (get_suggestion_count (GNode.mk k r ps cs)
        (((c.setTotal k (totalSpec (GNode.mk k r ps cs))).setTranslated k
          (translatedSpec (GNode.mk k r ps cs))).setFuzzy k
          (fuzzySpec (GNode.mk k r ps cs)))).2
      = (((c.setTotal k (totalSpec (GNode.mk k r ps cs))).setTranslated k
          (translatedSpec (GNode.mk k r ps cs))).setFuzzy k
          (fuzzySpec (GNode.mk k r ps cs))).setSuggestions k
          (suggestionsSpec (GNode.mk k r ps cs)) := by
    rw [get_suggestions_fresh k r ps cs]
    · exact h4
    · exact hchS
  have e5 : (get_last_action (GNode.mk k r ps cs)
        ((((c.setTotal k (totalSpec (GNode.mk k r ps cs))).setTranslated k
          (translatedSpec (GNode.mk k r ps cs))).setFuzzy k
          (fuzzySpec (GNode.mk k r ps cs))).setSuggestions k
          (suggestionsSpec (GNode.mk k r ps cs)))).2
      = ((((c.setTotal k (totalSpec (GNode.mk k r ps cs))).setTranslated k
          (translatedSpec (GNode.mk k r ps cs))).setFuzzy k
          (fuzzySpec (GNode.mk k r ps cs))).setSuggestions k
          (suggestionsSpec (GNode.mk k r ps cs))).setLastAction k
          (laSpec (GNode.mk k r ps cs)) := by
    rw [get_last_action_fresh k r ps cs]
    · exact h5
    · exact hchLA
  have e6 : (get_checks (GNode.mk k r ps cs)
        (((((c.setTotal k (totalSpec (GNode.mk k r ps cs))).setTranslated k
          (translatedSpec (GNode.mk k r ps cs))).setFuzzy k
          (fuzzySpec (GNode.mk k r ps cs))).setSuggestions k
          (suggestionsSpec (GNode.mk k r ps cs))).setLastAction k
          (laSpec (GNode.mk k r ps cs)))).2
      = (((((c.setTotal k (totalSpec (GNode.mk k r ps cs))).setTranslated k
          (translatedSpec (GNode.mk k r ps cs))).setFuzzy k
          (fuzzySpec (GNode.mk k r ps cs))).setSuggestions k
          (suggestionsSpec (GNode.mk k r ps cs))).setLastAction k
          (laSpec (GNode.mk k r ps cs))).setChecks k
          (checksSpec (GNode.mk k r ps cs)) := by
    rw [get_checks_fresh k r ps cs]
    · exact h6
    · exact hchC
  have e7 : (get_mtime (GNode.mk k r ps cs)
        ((((((c.setTotal k (totalSpec (GNode.mk k r ps cs))).setTranslated k
          (translatedSpec (GNode.mk k r ps cs))).setFuzzy k
          (fuzzySpec (GNode.mk k r ps cs))).setSuggestions k
          (suggestionsSpec (GNode.mk k r ps cs))).setLastAction k
          (laSpec (GNode.mk k r ps cs))).setChecks k
          (checksSpec (GNode.mk k r ps cs)))).2
      = ((((((c.setTotal k (totalSpec (GNode.mk k r ps cs))).setTranslated k
          (translatedSpec (GNode.mk k r ps cs))).setFuzzy k
          (fuzzySpec (GNode.mk k r ps cs))).setSuggestions k
          (suggestionsSpec (GNode.mk k r ps cs))).setLastAction k
          (laSpec (GNode.mk k r ps cs))).setChecks k
          (checksSpec (GNode.mk k r ps cs))).setMtime k
          (mtimeSpec (GNode.mk k r ps cs)) := by
    rw [get_mtime_fresh k r ps cs]
    · exact h7
    · exact hchM
  have e8 : (get_last_updated (GNode.mk k r ps cs)
        (((((((c.setTotal k (totalSpec (GNode.mk k r ps cs))).setTranslated k
          (translatedSpec (GNode.mk k r ps cs))).setFuzzy k
          (fuzzySpec (GNode.mk k r ps cs))).setSuggestions k
          (suggestionsSpec (GNode.mk k r ps cs))).setLastAction k
          (laSpec (GNode.mk k r ps cs))).setChecks k
          (checksSpec (GNode.mk k r ps cs))).setMtime k
          (mtimeSpec (GNode.mk k r ps cs)))).2
      = (((((((c.setTotal k (totalSpec (GNode.mk k r ps cs))).setTranslated k
          (translatedSpec (GNode.mk k r ps cs))).setFuzzy k
          (fuzzySpec (GNode.mk k r ps cs))).setSuggestions k
          (suggestionsSpec (GNode.mk k r ps cs))).setLastAction k
          (laSpec (GNode.mk k r ps cs))).setChecks k
          (checksSpec (GNode.mk k r ps cs))).setMtime k
          (mtimeSpec (GNode.mk k r ps cs))).setLastUpdated k
          (luSpec (GNode.mk k r ps cs)) := by
    rw [get_last_updated_fresh k r ps cs]
    · exact h8
    · exact hchLU
  simp only [read_all_stats, e1, e2, e3, e4, e5, e6, e7, e8]
  rfl

theorem refresh_master :
    (∀ n : GNode, RefreshOK n) ∧ ∀ gs : List GNode, RefreshOKList gs := by
  have hmk : ∀ (k : String) (r : Raw) (ps cs : List GNode),
      RefreshOKList ps → RefreshOKList cs → RefreshOK (GNode.mk k r ps cs) := by
    intro k r ps cs _ hQcs c hnp hnd
    obtain ⟨hps, hnpcs⟩ := noParents_mk k r ps cs hnp
    subst hps
    rw [subtreeKeys_mk] at hnd
    obtain ⟨hknot, hnd2⟩ := List.nodup_cons.1 hnd
    obtain ⟨hfreshC, hframeC⟩ := hQcs c hnpcs hnd2
    have hunf : refresh_stats (GNode.mk k r [] cs) true c
        = (read_all_stats (GNode.mk k r [] cs)
            (clear_all_cache (GNode.mk k r [] cs) [] false true
              (refresh_children cs c).1).1,
           (refresh_children cs c).2 ++ [k]) := by
      simp only [refresh_stats, if_true]
    have hkeyne : ∀ d ∈ descendantsList cs, d.key ≠ k := by
      intro d hd he
      exact hknot (he ▸ key_mem_subtreeKeysList cs d hd)
    have hch : ∀ d ∈ descendantsList cs,
        freshAt ⟨upd (refresh_children cs c).1.total k none,
          upd (refresh_children cs c).1.translated k none,
          upd (refresh_children cs c).1.fuzzy k none,
          upd (refresh_children cs c).1.suggestions k none,
          upd (refresh_children cs c).1.last_action k none,
          upd (refresh_children cs c).1.checks k none,
          upd (refresh_children cs c).1.mtime k none,
          upd (refresh_children cs c).1.last_updated k none⟩ d := by
      intro d hd
      obtain ⟨f1, f2, f3, f4, f5, f6, f7, f8⟩ := hfreshC d hd
      exact ⟨(upd_other _ none (hkeyne d hd)).trans f1,
        (upd_other _ none (hkeyne d hd)).trans f2,
        (upd_other _ none (hkeyne d hd)).trans f3,
        (upd_other _ none (hkeyne d hd)).trans f4,
        (upd_other _ none (hkeyne d hd)).trans f5,
        (upd_other _ none (hkeyne d hd)).trans f6,
        (upd_other _ none (hkeyne d hd)).trans f7,
        (upd_other _ none (hkeyne d hd)).trans f8⟩
    have hread := read_all_fresh k r [] cs
      ⟨upd (refresh_children cs c).1.total k none,
       upd (refresh_children cs c).1.translated k none,
       upd (refresh_children cs c).1.fuzzy k none,
       upd (refresh_children cs c).1.suggestions k none,
       upd (refresh_children cs c).1.last_action k none,
       upd (refresh_children cs c).1.checks k none,
       upd (refresh_children cs c).1.mtime k none,
       upd (refresh_children cs c).1.last_updated k none⟩
      (upd_same _ k none) (upd_same _ k none) (upd_same _ k none)
      (upd_same _ k none) (upd_same _ k none) (upd_same _ k none)
      (upd_same _ k none) (upd_same _ k none) hch
    have hfin : (refresh_stats (GNode.mk k r [] cs) true c).1
        = ⟨upd (upd (refresh_children cs c).1.total k none) k
              (some (totalSpec (GNode.mk k r [] cs))),
           upd (upd (refresh_children cs c).1.translated k none) k
              (some (translatedSpec (GNode.mk k r [] cs))),
           upd (upd (refresh_children cs c).1.fuzzy k none) k
              (some (fuzzySpec (GNode.mk k r [] cs))),
           upd (upd (refresh_children cs c).1.suggestions k none) k
              (some (suggestionsSpec (GNode.mk k r [] cs))),
           upd (upd (refresh_children cs c).1.last_action k none) k
              (some (laSpec (GNode.mk k r [] cs))),
           upd (upd (refresh_children cs c).1.checks k none) k
              (some (checksSpec (GNode.mk k r [] cs))),
           upd (upd (refresh_children cs c).1.mtime k none) k
              (some (mtimeSpec (GNode.mk k r [] cs))),
           upd (upd (refresh_children cs c).1.last_updated k none) k
              (some (luSpec (GNode.mk k r [] cs)))⟩ := by
      rw [hunf]
      show read_all_stats (GNode.mk k r [] cs)
          (clear_all_cache (GNode.mk k r [] cs) [] false true
            (refresh_children cs c).1).1 = _
      rw [clear_all_explicit k r cs (refresh_children cs c).1, hread]
    constructor
    · intro d hd
      rw [hfin]
      simp only [descendants, List.mem_cons] at hd
      rcases hd with rfl | hd
      · exact ⟨upd_same _ _ _, upd_same _ _ _, upd_same _ _ _, upd_same _ _ _,
          upd_same _ _ _, upd_same _ _ _, upd_same _ _ _, upd_same _ _ _⟩
      · obtain ⟨f1, f2, f3, f4, f5, f6, f7, f8⟩ := hfreshC d hd
        exact ⟨(upd_other _ _ (hkeyne d hd)).trans
            ((upd_other _ none (hkeyne d hd)).trans f1),
          (upd_other _ _ (hkeyne d hd)).trans
            ((upd_other _ none (hkeyne d hd)).trans f2),
          (upd_other _ _ (hkeyne d hd)).trans
            ((upd_other _ none (hkeyne d hd)).trans f3),
          (upd_other _ _ (hkeyne d hd)).trans
            ((upd_other _ none (hkeyne d hd)).trans f4),
          (upd_other _ _ (hkeyne d hd)).trans
            ((upd_other _ none (hkeyne d hd)).trans f5),
          (upd_other _ _ (hkeyne d hd)).trans
            ((upd_other _ none (hkeyne d hd)).trans f6),
          (upd_other _ _ (hkeyne d hd)).trans
            ((upd_other _ none (hkeyne d hd)).trans f7),
          (upd_other _ _ (hkeyne d hd)).trans
            ((upd_other _ none (hkeyne d hd)).trans f8)⟩
    · intro q hq
      rw [subtreeKeys_mk] at hq
      simp only [List.mem_cons, not_or] at hq
      obtain ⟨hq1, hq2⟩ := hq
      obtain ⟨e1, e2, e3, e4, e5, e6, e7, e8⟩ := hframeC q hq2
      rw [hfin]
      exact ⟨(upd_other _ _ hq1).trans ((upd_other _ none hq1).trans e1),
        (upd_other _ _ hq1).trans ((upd_other _ none hq1).trans e2),
        (upd_other _ _ hq1).trans ((upd_other _ none hq1).trans e3),
        (upd_other _ _ hq1).trans ((upd_other _ none hq1).trans e4),
        (upd_other _ _ hq1).trans ((upd_other _ none hq1).trans e5),
        (upd_other _ _ hq1).trans ((upd_other _ none hq1).trans e6),
        (upd_other _ _ hq1).trans ((upd_other _ none hq1).trans e7),
        (upd_other _ _ hq1).trans ((upd_other _ none hq1).trans e8)⟩
  have hnil : RefreshOKList [] := by
    intro c _ _
    constructor
    · intro d hd
      simp [descendantsList] at hd
    · intro q _
      exact cacheEqAt_refl _ q
  have hcons : ∀ (g : GNode) (gs : List GNode),
      RefreshOK g → RefreshOKList gs → RefreshOKList (g :: gs) := by
    intro g gs hPg hQgs c hnp hnd
    obtain ⟨hnpg, hnpgs⟩ := noParentsList_cons g gs hnp
    rw [subtreeKeysList_cons] at hnd
    rw [List.nodup_append] at hnd
    obtain ⟨hnd1, hnd2, hdisj⟩ := hnd
    obtain ⟨hfg, hfrg⟩ := hPg c hnpg hnd1
    obtain ⟨hfgs, hfrgs⟩ := hQgs (refresh_stats g true c).1 hnpgs hnd2
    have hunfc : (refresh_children (g :: gs) c).1
        = (refresh_children gs (refresh_stats g true c).1).1 := by
      simp only [refresh_children]
    constructor
    · intro d hd
      rw [hunfc]
      simp only [descendantsList, List.mem_append] at hd
      rcases hd with hd | hd
      · have hkey : d.key ∈ subtreeKeys g := key_mem_subtreeKeys g d hd
        have hnotin : d.key ∉ subtreeKeysList gs := fun hmem => hdisj hkey hmem
        exact freshAt_of_eqAt (hfg d hd) (hfrgs d.key hnotin)
      · exact hfgs d hd
    · intro q hq
      rw [subtreeKeysList_cons] at hq
      simp only [List.mem_append, not_or] at hq
      obtain ⟨hq1, hq2⟩ := hq
      rw [hunfc]
      exact cacheEqAt_trans (hfrgs q hq2) (hfrg q hq1)
  exact ⟨gnode_ind RefreshOK RefreshOKList hmk hnil hcons,
    gnode_list_ind RefreshOK RefreshOKList hmk hnil hcons⟩

/-- Claim C2 (amended): with `include_children = true`, `refresh_stats`
deletes the node's entry for every statistic and only then reads every
statistic, so that afterwards each statistic's cached value for the node
equals its from-scratch recomputation (shown for subtrees with distinct
cache keys and no parent links; upward propagation only performs further
deletions).  With `include_children = false` the claim fails: no entry
is invalidated at all (see the counterexample). -/
theorem c2_refresh_forces_recompute (n : GNode) (c : Cache)
    (hnp : noParents n = true) (hnd : (subtreeKeys n).Nodup) :
    freshAt (refresh_stats n true c).1 n :=
  (refresh_master.1 n c hnp hnd).1 n (self_mem_descendants n)

/-- Witness for C2: a concrete two-node tree with a stale cached total
of 999 on the root; after the refresh every entry of the root equals the
from-scratch value. -/
theorem c2_refresh_forces_recompute_witness :
    freshAt (refresh_stats c2w_node true c2w_cache).1 c2w_node :=
  c2_refresh_forces_recompute c2w_node c2w_cache (by decide) (by decide)

/-- Counterexample for C2 as stated: with `include_children = false` no
invalidation happens, so a pre-existing stale `total_wordcount` entry of
999 survives the refresh although the from-scratch value is 7. -/
theorem c2_counterexample :
    ((refresh_stats c2_leaf false c2_cache).1).total "n" = some 999 ∧
    totalSpec c2_leaf = 7 := by
  constructor
  · rfl
  · rfl

end Pootle
